import Mathlib

/-!
Shallow embedding of the Poseidon-based random-oracle transcript of
`src/prover/src/provider/poseidon.rs` and the folding error taxonomy of
`src/src/supernova/error.rs`.

Fields are modelled as `ZMod p` (base field, in which elements are absorbed
and the sponge output lives) and `ZMod q` (scalar field, in which the native
squeeze result is re-embedded).  The Poseidon permutation itself is an
external, already-audited collaborator: it is modelled as an abstract
function `sponge : C → List SpongeOp → List (ZMod p) → ZMod p` taking the
constants, the declared I/O pattern and the absorbed elements in insertion
order to the single squeezed element.  `bitLen` stands for the length of the
little-endian bit decomposition `to_le_bits` produces for a base-field
element.  Rust `assert!`/`assert_eq!`/slice-out-of-range panics are modelled
as `Option` failure (`none`); `bellpepper` synthesis errors are modelled by
the `Except` layer of the circuit squeeze result.
-/

/-- Sponge I/O pattern operations, mirroring `neptune::sponge::api::SpongeOp`
(`Absorb(u32)` / `Squeeze(u32)`). -/
inductive SpongeOp where
  | Absorb : ℕ → SpongeOp
  | Squeeze : ℕ → SpongeOp
deriving DecidableEq, Repr

/-- Little-endian bit decomposition of a natural number into exactly `len`
bits, mirroring `ff::PrimeFieldBits::to_le_bits` (bit `i` is the `i`-th
binary digit, low to high). -/
def natToBitsLE (x : ℕ) : ℕ → List Bool
  | 0 => []
  | l + 1 => decide (x % 2 = 1) :: natToBitsLE (x / 2) l

/-- The value represented by a little-endian list of bits:
`Σ bit_i · 2^i`, written recursively. -/
def bitsToNat : List Bool → ℕ
  | [] => 0
  | b :: bs => b.toNat + 2 * bitsToNat bs

/-- The repeated-doubling accumulation loop of `PoseidonRO::squeeze`:
`res = 0, coeff = 1; for bit in bits { if bit { res += coeff }; coeff += coeff }`. -/
def squeezeBitsAcc (q : ℕ) : List Bool → ZMod q → ZMod q → ZMod q
  | [], res, _ => res
  | b :: bs, res, coeff => squeezeBitsAcc q bs (if b then res + coeff else res) (coeff + coeff)

/-- `PoseidonRO<Base, Scalar>`: the native Poseidon random oracle.
`C` is the type of the (shared) `PoseidonConstantsCircuit` value, `p` the
base-field modulus, `q` the scalar-field modulus (the `PhantomData<Scalar>`
side). Fields mirror the Rust struct. -/
structure PoseidonRO (C : Type) (p q : ℕ) where
  state : List (ZMod p)
  constants : C
  numAbsorbs : ℕ
  squeezed : Bool
deriving DecidableEq

/-- `PoseidonRO::new(constants, num_absorbs)`: empty state, not squeezed. -/
def PoseidonRO.new (C : Type) (p q : ℕ) (constants : C) (numAbsorbs : ℕ) :
    PoseidonRO C p q :=
  { state := [], constants := constants, numAbsorbs := numAbsorbs, squeezed := false }

/-- `PoseidonRO::absorb`: `assert!(!self.squeezed)` then push `e`.
The assertion failure (panic) is modelled as `none`. -/
def PoseidonRO.absorb {C : Type} {p q : ℕ} (ro : PoseidonRO C p q) (e : ZMod p) :
    Option (PoseidonRO C p q) :=
  if ro.squeezed then none
  else some { ro with state := ro.state ++ [e] }

/-- Absorbing a list of elements in order, one `absorb` call each. -/
def PoseidonRO.absorbList {C : Type} {p q : ℕ} (ro : PoseidonRO C p q)
    (es : List (ZMod p)) : Option (PoseidonRO C p q) :=
  es.foldlM PoseidonRO.absorb ro

/-- `PoseidonRO::squeeze(num_bits)`.  Failure cases modelled as `none`:
`assert!(!self.squeezed)`, `assert_eq!(self.num_absorbs, self.state.len())`,
and the `bits[..num_bits]` slice panic when `num_bits` exceeds the bit
decomposition length.  Otherwise the sponge is run over the I/O pattern
`[Absorb(num_absorbs), Squeeze(1)]` on the state in insertion order, the
hash is decomposed into `bitLen` little-endian bits, the low `num_bits` are
kept and accumulated into the scalar field by repeated doubling, and the
oracle is marked squeezed. -/
def PoseidonRO.squeeze {C : Type} {p q : ℕ}
    (sponge : C → List SpongeOp → List (ZMod p) → ZMod p) (bitLen : ℕ)
    (ro : PoseidonRO C p q) (numBits : ℕ) :
    Option (ZMod q × PoseidonRO C p q) :=
  if ro.squeezed then none
  else
    let parameter := [SpongeOp.Absorb ro.numAbsorbs, SpongeOp.Squeeze 1]
    if ro.numAbsorbs ≠ ro.state.length then none
    else
      let hash := sponge ro.constants parameter ro.state
      let bits := natToBitsLE (ZMod.val hash) bitLen
      if bitLen < numBits then none
      else
        some (squeezeBitsAcc q (bits.take numBits) 0 1, { ro with squeezed := true })

/-- `bellpepper_core::SynthesisError`, the structured error returned by
fallible constraint allocation (external collaborator; its variants are not
relevant to this core, so a single payload-free constructor suffices). -/
inductive SynthesisError where
  | synthesisFailure : SynthesisError
deriving DecidableEq, Repr

/-- `PoseidonROCircuit<Scalar>`: the in-circuit Poseidon random oracle.
`V` is the type of constraint-system variable handles (`AllocatedNum`);
the concrete value of a handle is determined later by a witness
assignment `σ : V → ZMod p`. Fields mirror the Rust struct. -/
structure PoseidonROCircuit (C V : Type) where
  state : List V
  constants : C
  numAbsorbs : ℕ
  squeezed : Bool
deriving DecidableEq

/-- `PoseidonROCircuit::new(constants, num_absorbs)`. -/
def PoseidonROCircuit.new (C V : Type) (constants : C) (numAbsorbs : ℕ) :
    PoseidonROCircuit C V :=
  { state := [], constants := constants, numAbsorbs := numAbsorbs, squeezed := false }

/-- `PoseidonROCircuit::absorb`: `assert!(!self.squeezed)` then push a clone
of the handle. -/
def PoseidonROCircuit.absorb {C V : Type} (ro : PoseidonROCircuit C V) (v : V) :
    Option (PoseidonROCircuit C V) :=
  if ro.squeezed then none
  else some { ro with state := ro.state ++ [v] }

/-- Absorbing a list of variable handles in order. -/
def PoseidonROCircuit.absorbList {C V : Type} (ro : PoseidonROCircuit C V)
    (vs : List V) : Option (PoseidonROCircuit C V) :=
  vs.foldlM PoseidonROCircuit.absorb ro

/-- Witness-level semantics of `PoseidonROCircuit::squeeze(cs, num_bits)`
under a witness assignment `σ` binding each absorbed handle to a base-field
value.  The flag `squeezed` is set to `true` immediately after the
`assert!(!self.squeezed)`, before any sponge or constraint work.  The
sponge gadget mirrors the native algorithm, so on a satisfying assignment
its output element equals `sponge` applied to the witness values of the
state in insertion order.  `synth` models the outcome of the fallible
constraint emission (`ensure_allocated` / `to_bits_le_strict`, the two `?`
operators): `some e` makes squeeze return `Err(e)` with the flag already
set.  On success the output element is decomposed into `bitLen` strict
little-endian boolean signals whose witness values are returned truncated
to the low `num_bits` (the `[..num_bits]` slice panics, `none`, when
`num_bits` exceeds the decomposition length). -/
def PoseidonROCircuit.squeeze {C V : Type} {p : ℕ}
    (sponge : C → List SpongeOp → List (ZMod p) → ZMod p) (bitLen : ℕ)
    (σ : V → ZMod p) (synth : Option SynthesisError)
    (ro : PoseidonROCircuit C V) (numBits : ℕ) :
    Option (PoseidonROCircuit C V × Except SynthesisError (List Bool)) :=
  if ro.squeezed then none
  else
    let ro' := { ro with squeezed := true }
    let parameter := [SpongeOp.Absorb ro.numAbsorbs, SpongeOp.Squeeze 1]
    if ro.numAbsorbs ≠ ro.state.length then none
    else
      let hash := sponge ro.constants parameter (ro.state.map σ)
      match synth with
      | some e => some (ro', Except.error e)
      | none =>
        let bits := natToBitsLE (ZMod.val hash) bitLen
        if bitLen < numBits then none
        else some (ro', Except.ok (bits.take numBits))

/-- The reference computation of §4.2 of the spec for `squeeze`: run a
simplex sponge with I/O pattern `[Absorb(num_absorbs), Squeeze(1)]` on the
buffered elements in insertion order, take the little-endian bit
decomposition of the squeezed element, keep exactly the low `num_bits`
bits, and return `Σ bit_i · 2^i` in the scalar field. -/
def referenceSqueeze {C : Type} (p q : ℕ)
    (sponge : C → List SpongeOp → List (ZMod p) → ZMod p) (bitLen : ℕ)
    (constants : C) (numAbsorbs : ℕ) (es : List (ZMod p)) (numBits : ℕ) :
    ZMod q :=
  let hash := sponge constants [SpongeOp.Absorb numAbsorbs, SpongeOp.Squeeze 1] es
  let bits := (natToBitsLE (ZMod.val hash) bitLen).take numBits
  ∑ i ∈ Finset.range bits.length, cond (bits.getD i false) ((2 : ZMod q) ^ i) 0

/-- Modelled from the spec: the underlying `neptune::poseidon::PoseidonConstants`
value is external to this repository (only the wrapper and its derives are in
`src/`).  Per §3/§6 it is an immutable, equality-comparable parameter set —
round numbers, a domain tag, round constants and an MDS matrix of base-field
elements — that must serialize to and deserialize from a byte representation
reproducing the identical value. -/
structure PoseidonConstants (p : ℕ) where
  fullRounds : ℕ
  domainTag : ZMod p
  roundConstants : List (ZMod p)
  mdsMatrix : List (List (ZMod p))
deriving DecidableEq

/-- `PoseidonConstantsCircuit<Scalar>`: the newtype wrapper around
`PoseidonConstants` with derived `PartialEq`/`Eq`/`Serialize`/`Deserialize`
(src/prover/src/provider/poseidon.rs, lines 26-32). -/
structure PoseidonConstantsCircuit (p : ℕ) where
  inner : PoseidonConstants p
deriving DecidableEq

/-- Length-prefixed encoding of a list of field elements (each element by
its canonical representative). -/
def serializeFieldList {p : ℕ} (xs : List (ZMod p)) : List ℕ :=
  xs.length :: xs.map ZMod.val

/-- Modelled from the spec: the derived serialization of the wrapper
delegates to the external constants value; encoded here as the
concatenation of the round number, the domain tag and length-prefixed
encodings of the constant lists. -/
def serializeConstants {p : ℕ} (c : PoseidonConstantsCircuit p) : List ℕ :=
  c.inner.fullRounds :: ZMod.val c.inner.domainTag ::
    (serializeFieldList c.inner.roundConstants ++
      (c.inner.mdsMatrix.length :: (c.inner.mdsMatrix.map serializeFieldList).flatten))

/-- Decode one length-prefixed field-element list, returning it with the
unconsumed remainder. -/
def deserializeFieldList (p : ℕ) : List ℕ → Option (List (ZMod p) × List ℕ)
  | [] => none
  | n :: rest =>
    if n ≤ rest.length then
      some ((rest.take n).map (Nat.cast : ℕ → ZMod p), rest.drop n)
    else none

/-- Decode `k` consecutive length-prefixed field-element lists. -/
def deserializeRows (p : ℕ) : ℕ → List ℕ → Option (List (List (ZMod p)) × List ℕ)
  | 0, input => some ([], input)
  | k + 1, input =>
    match deserializeFieldList p input with
    | none => none
    | some (row, rest) =>
      match deserializeRows p k rest with
      | none => none
      | some (rows, rest₂) => some (row :: rows, rest₂)

/-- Modelled from the spec: deserialization of a `PoseidonConstantsCircuit`
value, the inverse direction of the persistence contract.  Rejects trailing
garbage. -/
def deserializeConstants (p : ℕ) : List ℕ → Option (PoseidonConstantsCircuit p)
  | fr :: dt :: rest =>
    match deserializeFieldList p rest with
    | none => none
    | some (rcs, rest₁) =>
      match rest₁ with
      | [] => none
      | nRows :: rest₂ =>
        match deserializeRows p nRows rest₂ with
        | none => none
        | some (rows, rest₃) =>
          if rest₃ = [] then
            some ⟨⟨fr, (dt : ZMod p), rcs, rows⟩⟩
          else none
  | _ => none

/-- `SuperNovaError` (src/src/supernova/error.rs): the folding error
taxonomy.  `N` stands for the lower-level `NovaError` type, an external
collaborator.  Constructors mirror the Rust variants `NovaError(NovaError)`,
`MissingCK`, and `UnSatIndex(&'static str, usize)`. -/
inductive SuperNovaError (N : Type) where
  | NovaError : N → SuperNovaError N
  | MissingCK : SuperNovaError N
  | UnSatIndex : String → ℕ → SuperNovaError N
deriving DecidableEq

/-- The `#[from]` conversion from the lower-level error: it produces the
pass-through variant with the cause embedded verbatim. -/
def SuperNovaError.fromNova {N : Type} (e : N) : SuperNovaError N :=
  SuperNovaError.NovaError e

/-! ### Arithmetic lemmas about the bit decomposition and accumulation -/

theorem bitsToNat_lt (bs : List Bool) : bitsToNat bs < 2 ^ bs.length := by
  induction bs with
  | nil => simp [bitsToNat]
  | cons b bs ih =>
    simp only [bitsToNat, List.length_cons, pow_succ]
    cases b <;> simp only [Bool.toNat, cond_false, cond_true] <;> omega

theorem natToBitsLE_length (x : ℕ) : ∀ len : ℕ, (natToBitsLE x len).length = len := by
  intro len
  induction len generalizing x with
  | zero => rfl
  | succ l ih => simp [natToBitsLE, ih]

theorem natToBitsLE_bitsToNat (bs : List Bool) :
    natToBitsLE (bitsToNat bs) bs.length = bs := by
  induction bs with
  | nil => rfl
  | cons b bs ih =>
    simp only [bitsToNat, List.length_cons, natToBitsLE]
    have h2 : (b.toNat + 2 * bitsToNat bs) / 2 = bitsToNat bs := by
      cases b <;> simp only [Bool.toNat, cond_false, cond_true] <;> omega
    have h1 : decide ((b.toNat + 2 * bitsToNat bs) % 2 = 1) = b := by
      cases b <;> simp only [Bool.toNat, cond_false, cond_true] <;> simp
    rw [h1, h2, ih]

theorem natToBitsLE_take (k len : ℕ) (h : k ≤ len) (x : ℕ) :
    (natToBitsLE x len).take k = natToBitsLE x k := by
  induction k generalizing len x with
  | zero => simp [natToBitsLE]
  | succ k ih =>
    cases len with
    | zero => omega
    | succ l =>
      simp only [natToBitsLE, List.take_succ_cons]
      rw [ih l (by omega) (x / 2)]

theorem bitsToNat_natToBitsLE (len : ℕ) : ∀ x : ℕ, x < 2 ^ len →
    bitsToNat (natToBitsLE x len) = x := by
  induction len with
  | zero =>
    intro x hx
    interval_cases x
    rfl
  | succ l ih =>
    intro x hx
    have hp : (2 : ℕ) ^ (l + 1) = 2 * 2 ^ l := by ring
    simp only [natToBitsLE, bitsToNat]
    rw [ih (x / 2) (by omega)]
    rcases Nat.mod_two_eq_zero_or_one x with h | h <;> simp [h] <;> omega

theorem squeezeBitsAcc_eq {q : ℕ} (bs : List Bool) (r c : ZMod q) :
    squeezeBitsAcc q bs r c = r + c * (bitsToNat bs : ZMod q) := by
  induction bs generalizing r c with
  | nil => simp [squeezeBitsAcc, bitsToNat]
  | cons b bs ih =>
    simp only [squeezeBitsAcc, bitsToNat]
    rw [ih]
    cases b <;> simp only [Bool.toNat, cond_false, cond_true, if_true, if_false] <;>
      push_cast <;> ring

theorem bitsToNat_eq_sum (bs : List Bool) :
    bitsToNat bs = ∑ i ∈ Finset.range bs.length, cond (bs.getD i false) (2 ^ i) 0 := by
  induction bs with
  | nil => rfl
  | cons b bs ih =>
    rw [bitsToNat, ih, List.length_cons, Finset.sum_range_succ']
    have h : ∀ i : ℕ, cond ((b :: bs).getD (i + 1) false) (2 ^ (i + 1) : ℕ) 0
        = 2 * cond (bs.getD i false) (2 ^ i) 0 := by
      intro i
      have hcons : (b :: bs).getD (i + 1) false = bs.getD i false := rfl
      rw [hcons]
      cases bs.getD i false
      · simp
      · simp [pow_succ, Nat.mul_comm]
    rw [Finset.sum_congr rfl (fun i _ => h i), ← Finset.mul_sum]
    have hzero : (b :: bs).getD 0 false = b := rfl
    rw [hzero]
    cases b <;> simp only [Bool.toNat, cond_false, cond_true] <;> omega

theorem squeezeBitsAcc_eq_natCast {q : ℕ} (bs : List Bool) :
    squeezeBitsAcc q bs 0 1 = (bitsToNat bs : ZMod q) := by
  rw [squeezeBitsAcc_eq, zero_add, one_mul]

theorem squeezeBitsAcc_eq_sum {q : ℕ} (bs : List Bool) :
    squeezeBitsAcc q bs 0 1 =
      ∑ i ∈ Finset.range bs.length, cond (bs.getD i false) ((2 : ZMod q) ^ i) 0 := by
  rw [squeezeBitsAcc_eq_natCast, bitsToNat_eq_sum]
  push_cast
  refine Finset.sum_congr rfl (fun i _ => ?_)
  cases bs.getD i false <;> simp

/-! ### Characterization lemmas for the oracle operations -/

theorem PoseidonRO.absorbList_unsqueezed {C : Type} {p q : ℕ} (es : List (ZMod p)) :
    ∀ ro : PoseidonRO C p q, ro.squeezed = false →
      ro.absorbList es = some { ro with state := ro.state ++ es } := by
  induction es with
  | nil =>
    intro ro h
    simp [PoseidonRO.absorbList]
  | cons e es ih =>
    intro ro h
    rw [PoseidonRO.absorbList, List.foldlM_cons, PoseidonRO.absorb, if_neg (by simp [h])]
    show PoseidonRO.absorbList _ es = _
    rw [ih { ro with state := ro.state ++ [e] } (by simp [h])]
    simp

theorem PoseidonROCircuit.absorbList_unsqueezed_circuit {C V : Type} (vs : List V) :
    ∀ ro : PoseidonROCircuit C V, ro.squeezed = false →
      ro.absorbList vs = some { ro with state := ro.state ++ vs } := by
  induction vs with
  | nil =>
    intro ro h
    simp [PoseidonROCircuit.absorbList]
  | cons v vs ih =>
    intro ro h
    rw [PoseidonROCircuit.absorbList, List.foldlM_cons, PoseidonROCircuit.absorb,
      if_neg (by simp [h])]
    show PoseidonROCircuit.absorbList _ vs = _
    rw [ih { ro with state := ro.state ++ [v] } (by simp [h])]
    simp

theorem PoseidonRO.squeeze_some_iff {C : Type} {p q : ℕ}
    (sponge : C → List SpongeOp → List (ZMod p) → ZMod p) (bitLen : ℕ)
    (ro : PoseidonRO C p q) (numBits : ℕ) (out : ZMod q × PoseidonRO C p q) :
    ro.squeeze sponge bitLen numBits = some out ↔
      ro.squeezed = false ∧ ro.numAbsorbs = ro.state.length ∧ numBits ≤ bitLen ∧
      out = (squeezeBitsAcc q
          ((natToBitsLE (ZMod.val (sponge ro.constants
              [SpongeOp.Absorb ro.numAbsorbs, SpongeOp.Squeeze 1] ro.state)) bitLen).take
            numBits) 0 1,
        { ro with squeezed := true }) := by
  constructor
  · intro h
    simp only [PoseidonRO.squeeze] at h
    split at h
    · exact absurd h (by simp)
    · next h1 =>
      split at h
      · exact absurd h (by simp)
      · next h2 =>
        split at h
        · exact absurd h (by simp)
        · next h3 =>
          refine ⟨by simpa using h1, by omega, by omega, ?_⟩
          exact (Option.some_inj.mp h).symm
  · rintro ⟨h1, h2, h3, rfl⟩
    simp only [PoseidonRO.squeeze, h1, Bool.false_eq_true, if_false, h2, ne_eq,
      not_true_eq_false, Nat.not_lt.mpr h3]

theorem PoseidonROCircuit.squeeze_some_iff_circuit {C V : Type} {p : ℕ}
    (sponge : C → List SpongeOp → List (ZMod p) → ZMod p) (bitLen : ℕ)
    (σ : V → ZMod p) (synth : Option SynthesisError)
    (ro : PoseidonROCircuit C V) (numBits : ℕ)
    (out : PoseidonROCircuit C V × Except SynthesisError (List Bool)) :
    ro.squeeze sponge bitLen σ synth numBits = some out ↔
      ro.squeezed = false ∧ ro.numAbsorbs = ro.state.length ∧
      ((∃ e, synth = some e ∧ out = ({ ro with squeezed := true }, Except.error e)) ∨
       (synth = none ∧ numBits ≤ bitLen ∧
        out = ({ ro with squeezed := true },
          Except.ok ((natToBitsLE (ZMod.val (sponge ro.constants
              [SpongeOp.Absorb ro.numAbsorbs, SpongeOp.Squeeze 1] (ro.state.map σ))) bitLen).take
            numBits)))) := by
  cases synth with
  | some e =>
    constructor
    · intro h
      simp only [PoseidonROCircuit.squeeze] at h
      split at h
      · exact absurd h (by simp)
      · next h1 =>
        split at h
        · exact absurd h (by simp)
        · next h2 =>
          exact ⟨by simpa using h1, by omega,
            Or.inl ⟨e, rfl, (Option.some_inj.mp h).symm⟩⟩
    · rintro ⟨h1, h2, h3 | h3⟩
      · obtain ⟨e', he', rfl⟩ := h3
        obtain rfl : e = e' := by injection he'
        simp only [PoseidonROCircuit.squeeze, h1, Bool.false_eq_true, if_false, h2, ne_eq,
          not_true_eq_false]
      · exact absurd h3.1 (by simp)
  | none =>
    constructor
    · intro h
      simp only [PoseidonROCircuit.squeeze] at h
      split at h
      · exact absurd h (by simp)
      · next h1 =>
        split at h
        · exact absurd h (by simp)
        · next h2 =>
          split at h
          · exact absurd h (by simp)
          · next h3 =>
            exact ⟨by simpa using h1, by omega,
              Or.inr ⟨rfl, by omega, (Option.some_inj.mp h).symm⟩⟩
    · rintro ⟨h1, h2, h3 | h3⟩
      · exact absurd h3.choose_spec.1 (by simp)
      · obtain ⟨-, hle, rfl⟩ := h3
        simp only [PoseidonROCircuit.squeeze, h1, Bool.false_eq_true, if_false, h2, ne_eq,
          not_true_eq_false, Nat.not_lt.mpr hle]

/-! ### Claim theorems -/

/-- C2: `PoseidonRO::squeeze(num_bits)`, given absorbed-count equal to
`num_absorbs` and `squeezed = false` (and `num_bits` within the bit
decomposition length, without which the slice panics), equals the reference
computation of the spec: run the sponge with I/O pattern
`[Absorb(num_absorbs), Squeeze(1)]` over the buffered elements in their
original insertion order, take the little-endian bit decomposition of the
squeezed element, keep exactly the low `num_bits` bits, and return the
scalar-field element `Σ bit_i · 2^i`. -/
theorem squeeze_eq_referenceSqueeze {C : Type} {p q : ℕ}
    (sponge : C → List SpongeOp → List (ZMod p) → ZMod p) (bitLen : ℕ)
    (ro : PoseidonRO C p q) (numBits : ℕ)
    (h1 : ro.squeezed = false) (h2 : ro.state.length = ro.numAbsorbs)
    (h3 : numBits ≤ bitLen) :
    ro.squeeze sponge bitLen numBits =
      some (referenceSqueeze p q sponge bitLen ro.constants ro.numAbsorbs ro.state numBits,
        { ro with squeezed := true }) := by
  rw [PoseidonRO.squeeze_some_iff]
  refine ⟨h1, h2.symm, h3, ?_⟩
  simp only [referenceSqueeze]
  rw [squeezeBitsAcc_eq_sum]

/-- Witness for C2 at a concrete instance. -/
theorem squeeze_eq_referenceSqueeze_witness :
    (PoseidonRO.squeeze (fun _ _ _ => (12 : ZMod 13)) 4
        { state := [5], constants := (), numAbsorbs := 1, squeezed := false } 4 :
      Option (ZMod 11 × PoseidonRO Unit 13 11)) =
      some (referenceSqueeze 13 11 (fun _ _ _ => (12 : ZMod 13)) 4 () 1 [5] 4,
        { state := [5], constants := (), numAbsorbs := 1, squeezed := true }) :=
  squeeze_eq_referenceSqueeze (fun _ _ _ => (12 : ZMod 13)) 4
    { state := [5], constants := (), numAbsorbs := 1, squeezed := false } 4
    rfl rfl (by decide)

/-- C3 fails as stated: `absorb` never checks the declared capacity, so a
`PoseidonRO` constructed with `num_absorbs = 0` accepts an absorb and ends
with a state vector strictly longer than its capacity. -/
theorem absorb_exceeds_capacity :
    (((PoseidonRO.new Unit 5 7 () 0).absorb 3).map
      (fun ro => (ro.state.length, ro.numAbsorbs))) = some (1, 0) := by
  decide

/-- C3 (amended): `absorb` is gated only by the `squeezed` flag, so the
state vector can exceed the declared capacity; the invariant the code
enforces is at squeeze time: a squeeze that completes implies the
absorbed-count equals `num_absorbs` exactly, for both the native and the
circuit oracle. -/
theorem squeeze_requires_exact_absorb_count {C V : Type} {p q : ℕ}
    (sponge spongeC : C → List SpongeOp → List (ZMod p) → ZMod p)
    (bitLen bitLenC : ℕ) (σ : V → ZMod p) (synth : Option SynthesisError)
    (ro : PoseidonRO C p q) (roc : PoseidonROCircuit C V) (numBits numBitsC : ℕ)
    (out : ZMod q × PoseidonRO C p q)
    (outc : PoseidonROCircuit C V × Except SynthesisError (List Bool)) :
    (ro.squeeze sponge bitLen numBits = some out → ro.state.length = ro.numAbsorbs) ∧
    (roc.squeeze spongeC bitLenC σ synth numBitsC = some outc →
      roc.state.length = roc.numAbsorbs) := by
  constructor
  · intro h
    exact ((PoseidonRO.squeeze_some_iff _ _ _ _ _).mp h).2.1.symm
  · intro h
    exact ((PoseidonROCircuit.squeeze_some_iff_circuit _ _ _ _ _ _ _).mp h).2.1.symm

/-- Witness for the amended C3 at a concrete instance. -/
theorem squeeze_requires_exact_absorb_count_witness :
    ({ state := [5], constants := (), numAbsorbs := 1, squeezed := false } :
        PoseidonRO Unit 13 11).state.length =
      ({ state := [5], constants := (), numAbsorbs := 1, squeezed := false } :
        PoseidonRO Unit 13 11).numAbsorbs :=
  (squeeze_requires_exact_absorb_count
      (fun _ _ _ => (12 : ZMod 13)) (fun _ _ _ => (12 : ZMod 13)) 4 4
      (fun _ : Unit => (5 : ZMod 13)) none
      { state := [5], constants := (), numAbsorbs := 1, squeezed := false }
      { state := [()], constants := (), numAbsorbs := 1, squeezed := false } 4 4
      ((1 : ZMod 11), { state := [5], constants := (), numAbsorbs := 1, squeezed := true })
      ({ state := [()], constants := (), numAbsorbs := 1, squeezed := true },
        Except.ok [false, false, true, true])).1 (by decide)

/-- C4: the one-shot contract: absorb-after-squeeze, squeeze-after-squeeze,
and squeeze with absorbed-count different from `num_absorbs` all fail as
contract violations (assertion panics, modelled as `none`), for both the
native and the circuit oracle. -/
theorem one_shot_contract_violations {C V : Type} {p q : ℕ}
    (sponge : C → List SpongeOp → List (ZMod p) → ZMod p) (bitLen : ℕ)
    (σ : V → ZMod p) (synth : Option SynthesisError)
    (ro : PoseidonRO C p q) (roc : PoseidonROCircuit C V)
    (e : ZMod p) (v : V) (numBits : ℕ) :
    (ro.squeezed = true → ro.absorb e = none) ∧
    (ro.squeezed = true → ro.squeeze sponge bitLen numBits = none) ∧
    (ro.state.length ≠ ro.numAbsorbs → ro.squeeze sponge bitLen numBits = none) ∧
    (roc.squeezed = true → roc.absorb v = none) ∧
    (roc.squeezed = true → roc.squeeze sponge bitLen σ synth numBits = none) ∧
    (roc.state.length ≠ roc.numAbsorbs →
      roc.squeeze sponge bitLen σ synth numBits = none) := by
  refine ⟨fun h => by simp [PoseidonRO.absorb, h], fun h => ?_, fun h => ?_,
    fun h => by simp [PoseidonROCircuit.absorb, h], fun h => ?_, fun h => ?_⟩
  · cases heq : ro.squeeze sponge bitLen numBits with
    | none => rfl
    | some out =>
      obtain ⟨hs, -, -, -⟩ := (PoseidonRO.squeeze_some_iff _ _ _ _ _).mp heq
      rw [h] at hs
      exact absurd hs (by simp)
  · cases heq : ro.squeeze sponge bitLen numBits with
    | none => rfl
    | some out =>
      obtain ⟨-, hc, -, -⟩ := (PoseidonRO.squeeze_some_iff _ _ _ _ _).mp heq
      exact absurd hc.symm h
  · cases heq : roc.squeeze sponge bitLen σ synth numBits with
    | none => rfl
    | some out =>
      obtain ⟨hs, -, -⟩ := (PoseidonROCircuit.squeeze_some_iff_circuit _ _ _ _ _ _ _).mp heq
      rw [h] at hs
      exact absurd hs (by simp)
  · cases heq : roc.squeeze sponge bitLen σ synth numBits with
    | none => rfl
    | some out =>
      obtain ⟨-, hc, -⟩ := (PoseidonROCircuit.squeeze_some_iff_circuit _ _ _ _ _ _ _).mp heq
      exact absurd hc.symm h

/-- Witness for C4 at concrete squeezed oracles. -/
theorem one_shot_contract_violations_witness :
    (({ state := [5], constants := (), numAbsorbs := 1, squeezed := true } :
        PoseidonRO Unit 13 11).absorb 2 = none) ∧
    (({ state := [5], constants := (), numAbsorbs := 1, squeezed := true } :
        PoseidonRO Unit 13 11).squeeze (fun _ _ _ => (12 : ZMod 13)) 4 4 = none) ∧
    (({ state := [()], constants := (), numAbsorbs := 1, squeezed := true } :
        PoseidonROCircuit Unit Unit).absorb () = none) ∧
    (({ state := [()], constants := (), numAbsorbs := 1, squeezed := true } :
        PoseidonROCircuit Unit Unit).squeeze (fun _ _ _ => (12 : ZMod 13)) 4
        (fun _ => (5 : ZMod 13)) none 4 = none) := by
  have h := one_shot_contract_violations (q := 11)
    (fun _ _ _ => (12 : ZMod 13)) 4 (fun _ : Unit => (5 : ZMod 13)) none
    { state := [5], constants := (), numAbsorbs := 1, squeezed := true }
    { state := [()], constants := (), numAbsorbs := 1, squeezed := true }
    2 () 4
  exact ⟨h.1 rfl, h.2.1 rfl, h.2.2.2.1 rfl, h.2.2.2.2.1 rfl⟩

/-- C5: the scalar-field element `PoseidonRO::squeeze(k)` returns, read as
the integer it canonically represents, is always strictly less than `2^k`:
only the low `k` bits are accumulated, and reduction modulo the scalar
order can only shrink the represented integer. -/
theorem squeeze_truncation_bound {C : Type} {p q : ℕ} [NeZero q]
    (sponge : C → List SpongeOp → List (ZMod p) → ZMod p) (bitLen : ℕ)
    (ro : PoseidonRO C p q) (numBits : ℕ) (r : ZMod q) (ro₂ : PoseidonRO C p q)
    (h : ro.squeeze sponge bitLen numBits = some (r, ro₂)) :
    ZMod.val r < 2 ^ numBits := by
  obtain ⟨-, -, -, hout⟩ := (PoseidonRO.squeeze_some_iff _ _ _ _ _).mp h
  injection hout with hr hro
  subst hr
  rw [squeezeBitsAcc_eq_natCast, ZMod.val_natCast]
  calc bitsToNat ((natToBitsLE (ZMod.val (sponge ro.constants
          [SpongeOp.Absorb ro.numAbsorbs, SpongeOp.Squeeze 1] ro.state)) bitLen).take
        numBits) % q
      ≤ bitsToNat ((natToBitsLE (ZMod.val (sponge ro.constants
          [SpongeOp.Absorb ro.numAbsorbs, SpongeOp.Squeeze 1] ro.state)) bitLen).take
        numBits) := Nat.mod_le _ _
    _ < 2 ^ ((natToBitsLE (ZMod.val (sponge ro.constants
          [SpongeOp.Absorb ro.numAbsorbs, SpongeOp.Squeeze 1] ro.state)) bitLen).take
        numBits).length := bitsToNat_lt _
    _ ≤ 2 ^ numBits := Nat.pow_le_pow_right (by norm_num)
        (by rw [List.length_take]; exact min_le_left _ _)

/-- Witness for C5 at a concrete instance. -/
theorem squeeze_truncation_bound_witness :
    ZMod.val (1 : ZMod 11) < 2 ^ 4 :=
  squeeze_truncation_bound (fun _ _ _ => (12 : ZMod 13)) 4
    { state := [5], constants := (), numAbsorbs := 1, squeezed := false } 4 1
    { state := [5], constants := (), numAbsorbs := 1, squeezed := true }
    (by decide)

/-- C9: with the contract preconditions met (`squeezed = false`,
absorbed-count equal to `num_absorbs`), `PoseidonRO::squeeze(num_bits)`
completes exactly when `num_bits` is at most the length of the base-field
little-endian bit decomposition; past that length the `bits[..num_bits]`
slice panics (modelled as `none`), so over-long challenge requests fail
loudly. -/
theorem squeeze_defined_iff_within_bit_length {C : Type} {p q : ℕ}
    (sponge : C → List SpongeOp → List (ZMod p) → ZMod p) (bitLen : ℕ)
    (ro : PoseidonRO C p q) (numBits : ℕ)
    (h1 : ro.squeezed = false) (h2 : ro.state.length = ro.numAbsorbs) :
    (ro.squeeze sponge bitLen numBits).isSome ↔ numBits ≤ bitLen := by
  constructor
  · intro h
    obtain ⟨out, hout⟩ := Option.isSome_iff_exists.mp h
    exact ((PoseidonRO.squeeze_some_iff _ _ _ _ _).mp hout).2.2.1
  · intro h
    rw [(PoseidonRO.squeeze_some_iff sponge bitLen ro numBits _).mpr
      ⟨h1, h2.symm, h, rfl⟩]
    rfl

/-- Witness for C9 at a concrete instance: squeeze succeeds at the full bit
length and fails one past it. -/
theorem squeeze_defined_iff_within_bit_length_witness :
    ((((PoseidonRO.new Unit 13 11 () 1).absorb 5).bind
        (fun ro => ro.squeeze (fun _ _ _ => (12 : ZMod 13)) 4 4)).isSome = true) ∧
    ((((PoseidonRO.new Unit 13 11 () 1).absorb 5).bind
        (fun ro => ro.squeeze (fun _ _ _ => (12 : ZMod 13)) 4 5)).isSome = false) := by
  constructor
  · have h := (squeeze_defined_iff_within_bit_length (q := 11)
      (fun _ _ _ => (12 : ZMod 13)) 4
      { state := [5], constants := (), numAbsorbs := 1, squeezed := false } 4
      rfl rfl).mpr (by decide)
    exact h
  · have h := (squeeze_defined_iff_within_bit_length (q := 11)
      (fun _ _ _ => (12 : ZMod 13)) 4
      { state := [5], constants := (), numAbsorbs := 1, squeezed := false } 5
      rfl rfl)
    simp only [show ((PoseidonRO.new Unit 13 11 () 1).absorb 5) =
      some { state := [5], constants := (), numAbsorbs := 1, squeezed := false } from by decide,
      Option.bind_some]
    rw [← Bool.not_eq_true]
    intro hcontra
    exact absurd (h.mp hcontra) (by decide)

/-- C10: `PoseidonROCircuit::squeeze` sets the `squeezed` flag before the
fallible constraint emission, so when it returns a synthesis error the
oracle is nonetheless permanently marked squeezed, and every subsequent
absorb or squeeze on the returned state fails the one-shot assertion. -/
theorem circuit_squeeze_error_marks_squeezed {C V : Type} {p : ℕ}
    (sponge sponge₂ : C → List SpongeOp → List (ZMod p) → ZMod p)
    (bitLen bitLen₂ : ℕ) (σ σ₂ : V → ZMod p) (synth₂ : Option SynthesisError)
    (e : SynthesisError) (roc : PoseidonROCircuit C V) (v : V)
    (numBits numBits₂ : ℕ)
    (h1 : roc.squeezed = false) (h2 : roc.state.length = roc.numAbsorbs) :
    roc.squeeze sponge bitLen σ (some e) numBits =
      some ({ roc with squeezed := true }, Except.error e) ∧
    ({ roc with squeezed := true } : PoseidonROCircuit C V).absorb v = none ∧
    ({ roc with squeezed := true } : PoseidonROCircuit C V).squeeze
      sponge₂ bitLen₂ σ₂ synth₂ numBits₂ = none := by
  refine ⟨?_, by simp [PoseidonROCircuit.absorb], by simp [PoseidonROCircuit.squeeze]⟩
  exact (PoseidonROCircuit.squeeze_some_iff_circuit _ _ _ _ _ _ _).mpr
    ⟨h1, h2.symm, Or.inl ⟨e, rfl, rfl⟩⟩

/-- Witness for C10 at a concrete instance. -/
theorem circuit_squeeze_error_marks_squeezed_witness :
    (({ state := [()], constants := (), numAbsorbs := 1, squeezed := false } :
        PoseidonROCircuit Unit Unit).squeeze (fun _ _ _ => (12 : ZMod 13)) 4
        (fun _ => (5 : ZMod 13)) (some SynthesisError.synthesisFailure) 4 =
      some ({ state := [()], constants := (), numAbsorbs := 1, squeezed := true },
        Except.error SynthesisError.synthesisFailure)) ∧
    (({ state := [()], constants := (), numAbsorbs := 1, squeezed := true } :
        PoseidonROCircuit Unit Unit).absorb () = none) ∧
    (({ state := [()], constants := (), numAbsorbs := 1, squeezed := true } :
        PoseidonROCircuit Unit Unit).squeeze (fun _ _ _ => (12 : ZMod 13)) 4
        (fun _ => (5 : ZMod 13)) none 4 = none) :=
  circuit_squeeze_error_marks_squeezed
    (fun _ _ _ => (12 : ZMod 13)) (fun _ _ _ => (12 : ZMod 13)) 4 4
    (fun _ => (5 : ZMod 13)) (fun _ => (5 : ZMod 13)) none
    SynthesisError.synthesisFailure
    { state := [()], constants := (), numAbsorbs := 1, squeezed := false } () 4 4
    rfl rfl

/-- C6: under a witness assignment, `PoseidonROCircuit::squeeze` decomposes
the single sponge output element into exactly `bitLen` (the field bit
length) strict little-endian boolean signals whose weighted sum `Σ bit_i · 2^i`
reconstructs the output element exactly, and returns only the low
`num_bits` signals, in the same little-endian low-to-high order as the
native bit decomposition. -/
theorem circuit_squeeze_strict_decomposition {C V : Type} {p : ℕ} [NeZero p]
    (sponge : C → List SpongeOp → List (ZMod p) → ZMod p) (bitLen : ℕ)
    (σ : V → ZMod p) (roc : PoseidonROCircuit C V) (numBits : ℕ)
    (h1 : roc.squeezed = false) (h2 : roc.state.length = roc.numAbsorbs)
    (h3 : numBits ≤ bitLen) (h4 : p ≤ 2 ^ bitLen) :
    roc.squeeze sponge bitLen σ none numBits =
      some ({ roc with squeezed := true },
        Except.ok ((natToBitsLE (ZMod.val (sponge roc.constants
            [SpongeOp.Absorb roc.numAbsorbs, SpongeOp.Squeeze 1]
            (roc.state.map σ))) bitLen).take numBits)) ∧
    (natToBitsLE (ZMod.val (sponge roc.constants
        [SpongeOp.Absorb roc.numAbsorbs, SpongeOp.Squeeze 1]
        (roc.state.map σ))) bitLen).length = bitLen ∧
    (∑ i ∈ Finset.range bitLen,
        cond ((natToBitsLE (ZMod.val (sponge roc.constants
            [SpongeOp.Absorb roc.numAbsorbs, SpongeOp.Squeeze 1]
            (roc.state.map σ))) bitLen).getD i false) (2 ^ i) 0 : ℕ) =
      ZMod.val (sponge roc.constants
        [SpongeOp.Absorb roc.numAbsorbs, SpongeOp.Squeeze 1] (roc.state.map σ)) ∧
    (natToBitsLE (ZMod.val (sponge roc.constants
        [SpongeOp.Absorb roc.numAbsorbs, SpongeOp.Squeeze 1]
        (roc.state.map σ))) bitLen).take numBits =
      natToBitsLE (ZMod.val (sponge roc.constants
        [SpongeOp.Absorb roc.numAbsorbs, SpongeOp.Squeeze 1] (roc.state.map σ))) numBits := by
  have hval : ZMod.val (sponge roc.constants
      [SpongeOp.Absorb roc.numAbsorbs, SpongeOp.Squeeze 1] (roc.state.map σ)) < 2 ^ bitLen :=
    lt_of_lt_of_le (ZMod.val_lt _) h4
  refine ⟨(PoseidonROCircuit.squeeze_some_iff_circuit _ _ _ _ _ _ _).mpr
      ⟨h1, h2.symm, Or.inr ⟨rfl, h3, rfl⟩⟩,
    natToBitsLE_length _ _, ?_, natToBitsLE_take numBits bitLen h3 _⟩
  have hsum := bitsToNat_eq_sum (natToBitsLE (ZMod.val (sponge roc.constants
      [SpongeOp.Absorb roc.numAbsorbs, SpongeOp.Squeeze 1] (roc.state.map σ))) bitLen)
  rw [natToBitsLE_length] at hsum
  rw [← hsum]
  exact bitsToNat_natToBitsLE bitLen _ hval

/-- Witness for C6 at a concrete instance. -/
theorem circuit_squeeze_strict_decomposition_witness :
    (({ state := [()], constants := (), numAbsorbs := 1, squeezed := false } :
        PoseidonROCircuit Unit Unit).squeeze (fun _ _ _ => (12 : ZMod 13)) 4
        (fun _ => (5 : ZMod 13)) none 4 =
      some ({ state := [()], constants := (), numAbsorbs := 1, squeezed := true },
        Except.ok ((natToBitsLE (ZMod.val ((12 : ZMod 13))) 4).take 4))) ∧
    (natToBitsLE (ZMod.val ((12 : ZMod 13))) 4).length = 4 ∧
    (∑ i ∈ Finset.range 4,
        cond ((natToBitsLE (ZMod.val ((12 : ZMod 13))) 4).getD i false) (2 ^ i) 0 : ℕ) =
      ZMod.val ((12 : ZMod 13)) ∧
    (natToBitsLE (ZMod.val ((12 : ZMod 13))) 4).take 4 =
      natToBitsLE (ZMod.val ((12 : ZMod 13))) 4 :=
  circuit_squeeze_strict_decomposition (fun _ _ _ => (12 : ZMod 13)) 4
    (fun _ => (5 : ZMod 13))
    { state := [()], constants := (), numAbsorbs := 1, squeezed := false } 4
    rfl rfl (by decide) (by decide)

/-- C1 fails as stated: with base field `ZMod 13`, scalar field `ZMod 11`,
bit length 4, `num_absorbs = 1` and `num_output_bits = 4` (equal to the
field bit length, as the claim allows), under a witness assignment binding
the circuit's absorbed variable to the same value 5 the native oracle
absorbed and a sponge squeezing the element 12, the circuit returns the
boolean signals `[false, false, true, true]` (the bits of 12) while the
native squeeze returns `12 mod 11 = 1`, whose low 4 bits are
`[true, false, false, false]`: the positional-weight accumulation wrapped
around the scalar-field order. -/
theorem native_circuit_bits_mismatch :
    ((((PoseidonRO.new Unit 13 11 () 1).absorb 5).bind
        (fun ro => ro.squeeze (fun _ _ _ => (12 : ZMod 13)) 4 4)).map
      (fun pr => natToBitsLE (ZMod.val pr.1) 4)) = some [true, false, false, false] ∧
    ((((PoseidonROCircuit.new Unit Unit () 1).absorb ()).bind
        (fun ro => ro.squeeze (fun _ _ _ => (12 : ZMod 13)) 4
          (fun _ => (5 : ZMod 13)) none 4)).map
      (fun pr => match pr.2 with
        | Except.ok bs => some bs
        | Except.error _ => none)) = some (some [false, false, true, true]) ∧
    ([true, false, false, false] : List Bool) ≠ [false, false, true, true] := by
  refine ⟨by decide, by decide, by decide⟩

/-- C1 (amended): native/circuit bit-for-bit equivalence holds for any
witness assignment binding the circuit's absorbed variables to the same
values the native oracle absorbed, under the same constants and sponge, any
`num_absorbs` in `[1, 64]`, and any `num_output_bits` at most the field bit
length such that additionally `2 ^ num_output_bits` is at most the
scalar-field order — the extra bound (absent from the original claim) is
exactly what keeps the positional-weight re-embedding from wrapping, as the
counterexample forces. -/
theorem native_circuit_bit_equivalence {C V : Type} {p q : ℕ} [NeZero q]
    (sponge : C → List SpongeOp → List (ZMod p) → ZMod p)
    (c : C) (n : ℕ) (hn1 : 1 ≤ n) (hn64 : n ≤ 64)
    (es : List (ZMod p)) (hes : es.length = n)
    (vs : List V) (σ : V → ZMod p) (hσ : vs.map σ = es)
    (bitLen numBits : ℕ) (hnb : numBits ≤ bitLen) (hq : 2 ^ numBits ≤ q) :
    ∃ (roN : PoseidonRO C p q) (roC : PoseidonROCircuit C V)
      (r : ZMod q) (bs : List Bool),
      (PoseidonRO.new C p q c n).absorbList es = some roN ∧
      (PoseidonROCircuit.new C V c n).absorbList vs = some roC ∧
      roN.squeeze sponge bitLen numBits = some (r, { roN with squeezed := true }) ∧
      roC.squeeze sponge bitLen σ none numBits =
        some ({ roC with squeezed := true }, Except.ok bs) ∧
      natToBitsLE (ZMod.val r) numBits = bs := by
  refine ⟨{ state := es, constants := c, numAbsorbs := n, squeezed := false },
    { state := vs, constants := c, numAbsorbs := n, squeezed := false },
    squeezeBitsAcc q ((natToBitsLE (ZMod.val (sponge c
        [SpongeOp.Absorb n, SpongeOp.Squeeze 1] es)) bitLen).take numBits) 0 1,
    (natToBitsLE (ZMod.val (sponge c
        [SpongeOp.Absorb n, SpongeOp.Squeeze 1] es)) bitLen).take numBits,
    ?_, ?_, ?_, ?_, ?_⟩
  · rw [PoseidonRO.absorbList_unsqueezed es (PoseidonRO.new C p q c n) rfl]
    simp [PoseidonRO.new]
  · rw [PoseidonROCircuit.absorbList_unsqueezed_circuit vs (PoseidonROCircuit.new C V c n) rfl]
    simp [PoseidonROCircuit.new]
  · exact (PoseidonRO.squeeze_some_iff _ _ _ _ _).mpr ⟨rfl, hes.symm, hnb, rfl⟩
  · refine (PoseidonROCircuit.squeeze_some_iff_circuit _ _ _ _ _ _ _).mpr
      ⟨rfl, ?_, Or.inr ⟨rfl, hnb, ?_⟩⟩
    · show n = vs.length
      have := congrArg List.length hσ
      simp only [List.length_map] at this
      omega
    · show _ = (_, Except.ok ((natToBitsLE (ZMod.val (sponge c
          [SpongeOp.Absorb n, SpongeOp.Squeeze 1] (vs.map σ))) bitLen).take numBits))
      rw [hσ]
  · have hlen : ((natToBitsLE (ZMod.val (sponge c
        [SpongeOp.Absorb n, SpongeOp.Squeeze 1] es)) bitLen).take numBits).length =
        numBits := by
      rw [List.length_take, natToBitsLE_length]
      exact Nat.min_eq_left hnb
    have hlt : bitsToNat ((natToBitsLE (ZMod.val (sponge c
        [SpongeOp.Absorb n, SpongeOp.Squeeze 1] es)) bitLen).take numBits) < q := by
      calc bitsToNat _ < 2 ^ ((natToBitsLE (ZMod.val (sponge c
            [SpongeOp.Absorb n, SpongeOp.Squeeze 1] es)) bitLen).take numBits).length :=
          bitsToNat_lt _
        _ ≤ q := by rw [hlen]; exact hq
    rw [squeezeBitsAcc_eq_natCast, ZMod.val_natCast_of_lt hlt]
    have := natToBitsLE_bitsToNat ((natToBitsLE (ZMod.val (sponge c
        [SpongeOp.Absorb n, SpongeOp.Squeeze 1] es)) bitLen).take numBits)
    rwa [hlen] at this

/-- Witness for the amended C1 at a concrete instance
(`p = 13`, `q = 17`, one absorbed element, 4 output bits, `2^4 ≤ 17`). -/
theorem native_circuit_bit_equivalence_witness :
    ∃ (roN : PoseidonRO Unit 13 17) (roC : PoseidonROCircuit Unit Unit)
      (r : ZMod 17) (bs : List Bool),
      (PoseidonRO.new Unit 13 17 () 1).absorbList [5] = some roN ∧
      (PoseidonROCircuit.new Unit Unit () 1).absorbList [()] = some roC ∧
      roN.squeeze (fun _ _ _ => (12 : ZMod 13)) 4 4 =
        some (r, { roN with squeezed := true }) ∧
      roC.squeeze (fun _ _ _ => (12 : ZMod 13)) 4 (fun _ => (5 : ZMod 13)) none 4 =
        some ({ roC with squeezed := true }, Except.ok bs) ∧
      natToBitsLE (ZMod.val r) 4 = bs :=
  native_circuit_bit_equivalence (fun _ _ _ => (12 : ZMod 13)) () 1
    (by decide) (by decide) [5] (by decide) [()] (fun _ => (5 : ZMod 13))
    (by decide) 4 4 (by decide) (by decide)

/-- Decoding a length-prefixed field-element list undoes its encoding and
leaves the trailing input untouched. -/
theorem deserializeFieldList_serializeFieldList {p : ℕ} [NeZero p]
    (xs : List (ZMod p)) (tail : List ℕ) :
    deserializeFieldList p (serializeFieldList xs ++ tail) = some (xs, tail) := by
  simp only [serializeFieldList, List.cons_append, deserializeFieldList]
  rw [if_pos (by simp)]
  have hlen : xs.length = (xs.map ZMod.val).length := (List.length_map _ _).symm
  rw [hlen, List.take_left, List.drop_left, List.map_map]
  have hmap : ((Nat.cast : ℕ → ZMod p) ∘ ZMod.val) = id :=
    funext (fun x => ZMod.natCast_rightInverse x)
  rw [hmap, List.map_id]

/-- Decoding `k` consecutive length-prefixed rows undoes their encoding. -/
theorem deserializeRows_serialize {p : ℕ} [NeZero p]
    (rows : List (List (ZMod p))) (tail : List ℕ) :
    deserializeRows p rows.length ((rows.map serializeFieldList).flatten ++ tail) =
      some (rows, tail) := by
  induction rows generalizing tail with
  | nil => simp [deserializeRows]
  | cons row rows ih =>
    simp only [List.map_cons, List.flatten_cons, List.length_cons, deserializeRows,
      List.append_assoc]
    rw [deserializeFieldList_serializeFieldList]
    show (match deserializeRows p rows.length
        ((rows.map serializeFieldList).flatten ++ tail) with
      | none => none
      | some (rws, rest₂) => some (row :: rws, rest₂)) = some (row :: rows, tail)
    rw [ih]

/-- C7: parameter round-trip: serializing a `PoseidonConstantsCircuit`
value and deserializing the result reproduces a value equal to the
original (the type carries decidable structural equality). -/
theorem constants_serialization_round_trip {p : ℕ} [NeZero p]
    (c : PoseidonConstantsCircuit p) :
    deserializeConstants p (serializeConstants c) = some c := by
  obtain ⟨⟨fr, dt, rcs, rows⟩⟩ := c
  simp only [serializeConstants, deserializeConstants]
  rw [deserializeFieldList_serializeFieldList]
  show (match deserializeRows p rows.length ((rows.map serializeFieldList).flatten) with
    | none => none
    | some (rws, rest₃) =>
      if rest₃ = [] then
        some (⟨⟨fr, ((ZMod.val dt : ℕ) : ZMod p), rcs, rws⟩⟩ : PoseidonConstantsCircuit p)
      else none) = some ⟨⟨fr, dt, rcs, rows⟩⟩
  have hflat : (rows.map serializeFieldList).flatten =
      (rows.map serializeFieldList).flatten ++ ([] : List ℕ) := by simp
  rw [hflat, deserializeRows_serialize]
  show (if ([] : List ℕ) = [] then
      some (⟨⟨fr, ((ZMod.val dt : ℕ) : ZMod p), rcs, rows⟩⟩ : PoseidonConstantsCircuit p)
    else none) = some ⟨⟨fr, dt, rcs, rows⟩⟩
  rw [if_pos rfl, ZMod.natCast_rightInverse dt]

/-- Witness for C7 at a concrete constants value over `ZMod 5`. -/
theorem constants_serialization_round_trip_witness :
    deserializeConstants 5 (serializeConstants
      (⟨⟨8, 3, [1, 2], [[1, 2], [3, 4]]⟩⟩ : PoseidonConstantsCircuit 5)) =
      some ⟨⟨8, 3, [1, 2], [[1, 2], [3, 4]]⟩⟩ :=
  constants_serialization_round_trip ⟨⟨8, 3, [1, 2], [[1, 2], [3, 4]]⟩⟩

/-- C8: the folding error taxonomy `SuperNovaError` has exactly three
variants — the pass-through wrapper around the lower-level error (target of
the `#[from]` conversion, which embeds the cause verbatim), the payload-free
missing-commitment-key signal, and the unsatisfied-variant signal carrying a
label and the integer index of the failing circuit variant — and the
variants are mutually distinct with injectively recoverable payloads. -/
theorem supernova_error_taxonomy (N : Type) :
    (∀ err : SuperNovaError N,
      (∃ e, err = SuperNovaError.NovaError e) ∨ err = SuperNovaError.MissingCK ∨
      (∃ s i, err = SuperNovaError.UnSatIndex s i)) ∧
    (∀ e : N, SuperNovaError.fromNova e = SuperNovaError.NovaError e) ∧
    (∀ e : N, SuperNovaError.NovaError e ≠ SuperNovaError.MissingCK) ∧
    (∀ (e : N) s i, SuperNovaError.NovaError e ≠ SuperNovaError.UnSatIndex s i) ∧
    (∀ s i, (SuperNovaError.MissingCK : SuperNovaError N) ≠ SuperNovaError.UnSatIndex s i) ∧
    (∀ e₁ e₂ : N, SuperNovaError.NovaError e₁ = SuperNovaError.NovaError e₂ → e₁ = e₂) ∧
    (∀ s₁ i₁ s₂ i₂, (SuperNovaError.UnSatIndex s₁ i₁ : SuperNovaError N) =
      SuperNovaError.UnSatIndex s₂ i₂ → s₁ = s₂ ∧ i₁ = i₂) := by
  refine ⟨fun err => ?_, fun e => rfl, fun e => by simp, fun e s i => by simp,
    fun s i => by simp, fun e₁ e₂ h => by injection h,
    fun s₁ i₁ s₂ i₂ h => by injection h with h1 h2; exact ⟨h1, h2⟩⟩
  cases err with
  | NovaError e => exact Or.inl ⟨e, rfl⟩
  | MissingCK => exact Or.inr (Or.inl rfl)
  | UnSatIndex s i => exact Or.inr (Or.inr ⟨s, i, rfl⟩)

/-- Witness for C8 at `N := ℕ`. -/
theorem supernova_error_taxonomy_witness :
    SuperNovaError.fromNova (0 : ℕ) = SuperNovaError.NovaError 0 ∧
    (SuperNovaError.NovaError (0 : ℕ)) ≠ SuperNovaError.MissingCK ∧
    (SuperNovaError.MissingCK : SuperNovaError ℕ) ≠ SuperNovaError.UnSatIndex "lbl" 2 :=
  ⟨(supernova_error_taxonomy ℕ).2.1 0, (supernova_error_taxonomy ℕ).2.2.1 0,
    (supernova_error_taxonomy ℕ).2.2.2.2.1 "lbl" 2⟩
